import Mathlib

/-!
# streamtools: `fromHTTPStream` and `webRequest` blocks

A shallow embedding of `st/library/fromHTTPStream.go` and
`st/library/webRequest.go`.

* Go `interface{}` values are the inductive type `Value`; a Go
  `map[string]interface{}` is an association list (keys of a Go map are
  distinct, which theorems that need it state as a `Nodup` hypothesis).
* Bytes are natural numbers (only compared, never computed with).
* The `bytes.Buffer` of the listener is its contents together with the arrays
  that have backed it: a fallback message holds a sub-slice of such an array,
  not a copy, and is read through the arrays.
* Channels are explicit state: the buffered `dataChan` is a list bounded by
  its capacity, an unbuffered `quitChan` is an identifier together with the
  record of which listeners already consumed their signal.
* What the code leaves to its environment is a parameter: the JSON decoder,
  `util.ParseString`, the growth policy of `bytes.Buffer`, whether a listener
  comes back from its read, and the iteration order of a Go map.
-/

namespace Streamtools

/-! ## Values -/

/-- Go `interface{}` values that travel through the blocks. -/
inductive Value where
  | null : Value
  | bool : Bool → Value
  | num : Int → Value
  | str : String → Value
  | bytes : List Nat → Value
  | arr : List Value → Value
  | obj : List (String × Value) → Value

/-- Type assertion `v.(string)` in its comma-ok form: the string and `true`, or
the zero value `""` and `false`. -/
def Value.assertString : Value → String × Bool
  | Value.str s => (s, true)
  | _ => ("", false)

/-- Whether a value is a Go string (the `case string` arm of a type switch). -/
def Value.isStr : Value → Bool
  | Value.str _ => true
  | _ => false

/-! ## Splitting -/

/-- Both `bytes.Split(s, []byte{10})` and `strings.Split(s, ":")` as the source
calls them, with a separator of one element: the pieces between the
occurrences of `sep`, one more piece than there are occurrences. -/
def splitOn {α : Type} [DecidableEq α] (sep : α) : List α → List (List α)
  | [] => [[]]
  | c :: cs =>
    if c = sep then [] :: splitOn sep cs
    else
      match splitOn sep cs with
      | h :: t => (c :: h) :: t
      | [] => [[c]]

/-! ## The listener of `fromHTTPStream.go` -/

/-- First delimiter of `listen`: `}` followed by a newline. -/
def d1 : List Nat := [125, 10]

/-- Second delimiter of `listen`: CR LF. -/
def d2 : List Nat := [13, 10]

/-- Capacity of `dataChan` as made in `Run`: `make(chan interface{}, 1000)`. -/
def dataChanCap : Nat := 1000

/-- Go conversion `string(n)` of an integer: the UTF-8 text of the code point
`n`, or of U+FFFD when `n` is not a valid code point. -/
def goStringOfInt (n : Nat) : String :=
  if n < 0xd800 ∨ (0xdfff < n ∧ n < 0x110000) then String.singleton (Char.ofNat n)
  else String.singleton (Char.ofNat 0xfffd)

/-- Text of the error reported when the queue is full, `n` being
`len(dataChan)`: `"Discarding " + string(len(dataChan)) + "messages"`. -/
def discardText (n : Nat) : String :=
  "Discarding " ++ goStringOfInt n ++ "messages"

/-- A message as it sits on `dataChan`: the value `json.Unmarshal` built (fresh
memory), or the fallback map `{"data": blob}` whose `blob` is the sub-slice
`[off, off + len)` of the array numbered `arr` among those that backed `body`. -/
inductive Msg where
  | decoded : Value → Msg
  | raw : (arr off len : Nat) → Msg

/-- What a reader of the message sees, given the present contents of the
arrays. -/
def readMsg (arrays : List (List Nat)) : Msg → Value
  | Msg.decoded v => v
  | Msg.raw arr off len =>
    Value.obj [("data", Value.bytes (((arrays[arr]?.getD []).drop off).take len))]

/-- State of one `listen` goroutine past the connection set-up. `body` is what
`body.Bytes()` returns; `arrays` are the arrays allocated for `body` so far,
each in its full capacity, the last one being the one `body` uses now;
`dataChan` is the contents of the channel; `errors` are the errors handed to
`b.Error`. `sent` is a history variable: every message put on `dataChan`, as it
read at the moment of the send. -/
structure ListenState where
  body : List Nat
  arrays : List (List Nat)
  dataChan : List Msg
  errors : List String
  sent : List Value

/-- The non-blocking send of `listen`:
`select { case dataChan <- outMsg: default: b.Error(...) }`. -/
def offer (cap : Nat) (st : ListenState) (m : Msg) : ListenState :=
  if st.dataChan.length < cap then
    { st with dataChan := st.dataChan ++ [m], sent := st.sent ++ [readMsg st.arrays m] }
  else
    { st with errors := st.errors ++ [discardText st.dataChan.length] }

/-- Message built for the blob that `bytes.Split` cut out of array `arr` at
offset `off`: the decoded value, or the map holding that very sub-slice under
`"data"` when `json.Unmarshal` fails. -/
def outMsgOf (decode : List Nat → Option Value) (arr off : Nat) (blob : List Nat) : Msg :=
  match decode blob with
  | some v => Msg.decoded v
  | none => Msg.raw arr off blob.length

/-- Body of the `range bytes.Split(body.Bytes(), []byte{10})` loop for one
blob. -/
def onBlob (cap : Nat) (decode : List Nat → Option Value) (arr off : Nat)
    (st : ListenState) (blob : List Nat) : ListenState :=
  if 0 < blob.length then offer cap st (outMsgOf decode arr off blob) else st

/-- The `range bytes.Split(body.Bytes(), []byte{10})` loop: the pieces are
consecutive sub-slices of array `arr`, each one byte (the newline) after the
end of the one before. -/
def blobLoop (cap : Nat) (decode : List Nat → Option Value) (arr : Nat) :
    Nat → ListenState → List (List Nat) → ListenState
  | _, st, [] => st
  | off, st, blob :: rest =>
    blobLoop cap decode arr (off + blob.length + 1) (onBlob cap decode arr off st blob) rest

/-- Call `body.Write(chunk)`: the bytes are appended in place when the array in
use has room for them; otherwise a new array is allocated, of the capacity
`grow c m n` that the growth policy of `bytes.Buffer` gives for capacity `c`,
length `m` and `n` new bytes (and never less than needed), and the contents are
copied into it. The array in use starts with the contents of `body`, so after
an append in place it holds the new contents followed by what it held beyond
them. -/
def bodyWrite (grow : Nat → Nat → Nat → Nat) (st : ListenState) (chunk : List Nat) :
    ListenState :=
  let a := st.arrays.getLast?.getD []
  let content := st.body ++ chunk
  if content.length ≤ a.length then
    { st with body := content, arrays := st.arrays.dropLast ++ [content ++ a.drop content.length] }
  else
    { st with
      body := content
      arrays := st.arrays ++
        [content ++ List.replicate (grow a.length st.body.length chunk.length - content.length) 0] }

/-- Call `body.Reset()`: the buffer is emptied and keeps its array. -/
def bodyReset (st : ListenState) : ListenState :=
  { st with body := [] }

/-- Test `bytes.Equal(d1, buffer[p-2:p]) || bytes.Equal(d2, buffer[p-2:p])`. -/
def endsWithDelim (chunk : List Nat) : Bool :=
  decide (d1 = chunk.drop (chunk.length - 2)) || decide (d2 = chunk.drop (chunk.length - 2))

/-- One successful read of `p = chunk.length` bytes in the loop of `listen`
(the `default` arm with `err == nil`). -/
def onChunk (grow : Nat → Nat → Nat → Nat) (cap : Nat) (decode : List Nat → Option Value)
    (st : ListenState) (chunk : List Nat) : ListenState :=
  if chunk.length < 2 then st
  else
    let st1 := bodyWrite grow st chunk
    if endsWithDelim chunk then
      bodyReset (blobLoop cap decode (st1.arrays.length - 1) 0 st1 (splitOn 10 st1.body))
    else st1

/-- Successive successful reads of the loop of `listen`, one chunk per read. -/
def feedChunks (grow : Nat → Nat → Nat → Nat) (cap : Nat) (decode : List Nat → Option Value)
    (st : ListenState) (chunks : List (List Nat)) : ListenState :=
  chunks.foldl (onChunk grow cap decode) st

/-- State of `listen` when it enters its loop: `body` is the zero
`bytes.Buffer`, nothing has been sent or reported, `dataChan` holds `queue`. -/
def ListenState.start (queue : List Msg) : ListenState :=
  { body := [], arrays := [], dataChan := queue, errors := [], sent := [] }

/-- Value of the message for one blob: the decoded value, or the map holding
the bytes of the blob under `"data"`. -/
def msgValue (decode : List Nat → Option Value) (blob : List Nat) : Value :=
  match decode blob with
  | some v => v
  | none => Value.obj [("data", Value.bytes blob)]

/-- Values of the messages of a terminated frame, in order: one per non-empty
piece of the buffer cut at newlines. -/
def frameMsgs (decode : List Nat → Option Value) (buf : List Nat) : List Value :=
  ((splitOn 10 buf).filter (fun blob => decide (0 < blob.length))).map (msgValue decode)

/-- The part of a listener state that the sends read and write, seen as
values: how many messages are queued, the messages sent so far as they read
when sent, and the errors reported. -/
structure View where
  queued : Nat
  sent : List Value
  errors : List String

/-- View of a listener state. -/
def view (st : ListenState) : View :=
  { queued := st.dataChan.length, sent := st.sent, errors := st.errors }

/-- The non-blocking send, on views. -/
def viewOffer (cap : Nat) (v : View) (m : Value) : View :=
  if v.queued < cap then { v with queued := v.queued + 1, sent := v.sent ++ [m] }
  else { v with errors := v.errors ++ [discardText v.queued] }

/-- The pieces of a split put back together, a newline between two of them. -/
def joinNl : List (List Nat) → List Nat
  | [] => []
  | [p] => p
  | p :: q :: r => p ++ 10 :: joinNl (q :: r)

/-- One growth policy of `bytes.Buffer`: the 64 bytes of its bootstrap array
for a first write that fits in them, twice the capacity plus the bytes to write
otherwise. The theorems hold for every policy; this one serves in examples. -/
def bufferGrow (c _m n : Nat) : Nat :=
  if c = 0 ∧ n ≤ 64 then 64 else 2 * c + n

/-- A decoder that agrees with `json.Unmarshal` on every blob that is the empty
JSON object, with or without JSON white space, or is not JSON at all. -/
def decodeEmptyObject : List Nat → Option Value :=
  fun blob =>
    if blob.filter (fun b => !(decide (b = 32) || decide (b = 9) || decide (b = 10)
        || decide (b = 13))) = [123, 125] then some (Value.obj [])
    else none

/-- Start of `listen` up to `req.SetBasicAuth`: when `auth` is not empty it is
split on `:` and the pieces at index 0 and 1 are taken. `none` is the
index-out-of-range run-time panic; `some none` is no credentials set. -/
def listenCredentials (auth : String) : Option (Option (String × String)) :=
  if 0 < auth.length then
    match (splitOn ':' auth.toList)[0]?, (splitOn ':' auth.toList)[1]? with
    | some u, some p => some (some (String.mk u, String.mk p))
    | _, _ => none
  else some none

/-! ## The control loop of `fromHTTPStream.go` -/

/-- How a step of a control loop can fail to produce a next state: a send that
no goroutine will ever receive, or a run-time panic. -/
inductive Fault where
  | blocked : Fault
  | panicked : Fault
deriving DecidableEq

/-- Variables of `FromHTTPStream.Run` between two iterations of its loop.
Every `make(chan bool)` is numbered; `started` lists the listeners launched,
with the endpoint and credentials given to `listen` (listener `i` owns channel
`i`), `signalled` lists the channels on which a
`true` has been received. `replies` are the answers sent on query channels,
`out` is what was broadcast, `exited` says `Run` has returned. -/
structure StreamState where
  endpoint : String
  auth : String
  quitChan : Option Nat
  started : List (String × String)
  signalled : List Nat
  errors : List String
  replies : List Value
  out : List Value
  exited : Bool

/-- State of `Run` on entry: zero values, `quitChan` nil. -/
def StreamState.init : StreamState :=
  { endpoint := "", auth := "", quitChan := none, started := [], signalled := [],
    errors := [], replies := [], out := [], exited := false }

/-- Events the `select` of a control loop waits for. -/
inductive Event where
  | push : Value → Event
  | query : Event
  | quit : Event
  | data : Value → Event

/-- Guarded send `if quitChan != nil { quitChan <- true }` on the unbuffered
channel. `listen` receives from its `quitChan` once (in its loop or at
`WaitForDeath`) and then returns, so a channel whose signal has been received
has no receiver left and a second send on it never completes. A listener that
has not received yet receives only if it comes back to its `select` or reaches
`WaitForDeath`, which `returns c` says of listener `c`; it does not while it
sits in `res.Body.Read` on an open, silent stream, and the send then never
completes either. -/
def sendQuit (returns : Nat → Bool) (st : StreamState) : Except Fault StreamState :=
  match st.quitChan with
  | none => Except.ok st
  | some c =>
    if c ∈ st.signalled then Except.error Fault.blocked
    else if returns c then Except.ok { st with signalled := st.signalled ++ [c] }
    else Except.error Fault.blocked

/-- Every listener comes back from its reads. -/
def allReturn : Nat → Bool := fun _ => true

/-- The `case ruleI := <-b.inrule` arm of `FromHTTPStream.Run`. -/
def streamPush (returns : Nat → Bool) (st : StreamState) (ruleI : Value) :
    Except Fault StreamState :=
  match sendQuit returns st with
  | Except.error f => Except.error f
  | Except.ok st1 =>
    match ruleI with
    | Value.obj rule =>
      let e := ((rule.lookup "Endpoint").getD Value.null).assertString
      let st2 := { st1 with endpoint := e.1 }
      if e.2 = false then
        Except.ok { st2 with errors := st2.errors ++ ["bad endpoint"] }
      else
        let tauth := (rule.lookup "Auth").getD (Value.str "")
        let a := tauth.assertString
        let st3 := { st2 with auth := a.1 }
        if a.2 = false then
          Except.ok { st3 with errors := st3.errors ++ ["bad auth"] }
        else
          Except.ok { st3 with
            quitChan := some st3.started.length
            started := st3.started ++ [(st3.endpoint, st3.auth)] }
    | _ => Except.error Fault.panicked

/-- Reply sent by the `case c := <-b.queryrule` arm. -/
def streamQueryReply (st : StreamState) : Value :=
  Value.obj [("Endpoint", Value.str st.endpoint), ("Auth", Value.str st.auth)]

/-- The `case <-b.quit` arm: signal the listener if there is one, return. -/
def streamQuit (returns : Nat → Bool) (st : StreamState) : Except Fault StreamState :=
  match sendQuit returns st with
  | Except.error f => Except.error f
  | Except.ok st1 => Except.ok { st1 with exited := true }

/-- One iteration of the loop of `FromHTTPStream.Run`. -/
def streamStep (returns : Nat → Bool) (st : StreamState) :
    Event → Except Fault StreamState
  | Event.push ruleI => streamPush returns st ruleI
  | Event.query => Except.ok { st with replies := st.replies ++ [streamQueryReply st] }
  | Event.quit => streamQuit returns st
  | Event.data msg => Except.ok { st with out := st.out ++ [msg] }

/-- Run of the loop over a sequence of events, from state `st`. -/
def streamRun (returns : Nat → Bool) (st : StreamState) :
    List Event → Except Fault StreamState
  | [] => Except.ok st
  | ev :: evs =>
    match streamStep returns st ev with
    | Except.error f => Except.error f
    | Except.ok st1 => streamRun returns st1 evs

/-- A pushed rule that `Run` accepts with endpoint `E` and credentials `A`: a
map whose `Endpoint` is the string `E` and whose `Auth` is the string `A`, or
is absent with `A` empty. -/
def Accepted (ruleI : Value) (E A : String) : Prop :=
  ∃ rule, ruleI = Value.obj rule ∧ rule.lookup "Endpoint" = some (Value.str E) ∧
    (rule.lookup "Auth" = some (Value.str A) ∨ (rule.lookup "Auth" = none ∧ A = ""))

/-- A pushed rule that fails validation: a map whose `Endpoint` is missing or
not a string, or whose `Auth` is present and not a string. -/
def Rejected (ruleI : Value) : Prop :=
  ∃ rule, ruleI = Value.obj rule ∧
    ((rule.lookup "Endpoint" = none ∨ ∃ v, rule.lookup "Endpoint" = some v ∧ v.isStr = false) ∨
     ∃ v, rule.lookup "Auth" = some v ∧ v.isStr = false)

/-! ## `webRequest.go` -/

/-- Go assignment `t[k] = r` on a `map[string]string`: the entry of `k` is
replaced when there is one, added otherwise. -/
def mapSet (t : List (String × String)) (k r : String) : List (String × String) :=
  match t with
  | [] => [(k, r)]
  | (k1, r1) :: rest => if k1 = k then (k, r) :: rest else (k1, r1) :: mapSet rest k r

/-- Loop `for k, v := range headerRule` of `parseHeaders`, with `t` as filled so
far: `t[k] = r` for a string value, the error as soon as a value is not one. -/
def parseHeadersFrom (t : List (String × String)) :
    List (String × Value) → Except String (List (String × String))
  | [] => Except.ok t
  | (k, v) :: rest =>
    match v with
    | Value.str r => parseHeadersFrom (mapSet t k r) rest
    | _ => Except.error "value is not a string"

/-- The function `parseHeaders`. -/
def parseHeaders (headerRule : List (String × Value)) :
    Except String (List (String × String)) :=
  parseHeadersFrom [] headerRule

/-- Variables of `WebRequest.Run` between two iterations of its loop. -/
structure WebState where
  url : String
  httpMethod : String
  headerRule : List (String × Value)
  headers : List (String × String)
  errors : List String
  replies : List Value
  exited : Bool

/-- State of `WebRequest.Run` on entry to its loop. -/
def WebState.init : WebState :=
  { url := "", httpMethod := "", headerRule := [], headers := [],
    errors := [], replies := [], exited := false }

/-- Modelled from the spec: `util.ParseString` of package `st/util` is not among
the sources. A configuration field is valid when it is present in the pushed
map and is a string; otherwise an error is returned with the empty string. -/
def parseStringModel (ruleI : Value) (key : String) : String × Option String :=
  match ruleI with
  | Value.obj rule =>
    match rule.lookup key with
    | some (Value.str s) => (s, none)
    | some _ => ("", some "not a string")
    | none => ("", some "missing key")
  | _ => ("", some "not a map")

/-- The `case ruleI := <-b.inrule` arm of `WebRequest.Run`; `ParseString`
stands for `util.ParseString`, returning the value and the error if any. -/
def webPush (ParseString : Value → String → String × Option String)
    (st : WebState) (ruleI : Value) : Except Fault WebState :=
  let u := ParseString ruleI "Url"
  let st1 := { st with url := u.1 }
  let m := ParseString ruleI "Method"
  let st2 := { st1 with httpMethod := m.1 }
  match m.2 with
  | some err => Except.ok { st2 with errors := st2.errors ++ [err] }
  | none =>
    match ruleI with
    | Value.obj rule =>
      match rule.lookup "Headers" with
      | none => Except.ok st2
      | some (Value.obj headerRule) =>
        let st3 := { st2 with headerRule := headerRule }
        match parseHeaders headerRule with
        | Except.ok p => Except.ok { st3 with headers := p }
        | Except.error err => Except.ok { st3 with errors := st3.errors ++ [err] }
      | some _ => Except.error Fault.panicked
    | _ => Except.error Fault.panicked

/-- The parts of an outbound `http.Request` that the headers loop writes: the
`Host` field and the wire headers. -/
structure Request where
  host : String
  header : List (String × String)

/-- Loop `for key, value := range headers` of the `case msg := <-b.in` arm: the
key `Host` sets `req.Host`, any other key goes through `req.Header.Set`, which
stores the value under the canonical form `canon key` of the key. A Go map is
ranged over in an order the runtime picks; `order` gives the entries in that
order. -/
def applyHeaders (canon : String → String)
    (order : List (String × String) → List (String × String))
    (headers : List (String × String)) (req : Request) : Request :=
  (order headers).foldl
    (fun r kv =>
      if kv.1 = "Host" then { r with host := kv.2 }
      else { r with header := mapSet r.header (canon kv.1) kv.2 })
    req

/-- Reply sent by the `case resp := <-b.queryrule` arm of `WebRequest.Run`. -/
def webQueryReply (st : WebState) : Value :=
  Value.obj [("Url", Value.str st.url), ("Method", Value.str st.httpMethod),
    ("Headers", Value.obj st.headerRule)]

/-- Run of pushes through the loop of `WebRequest.Run`, from state `st`. -/
def webRun (ParseString : Value → String → String × Option String)
    (st : WebState) : List Value → Except Fault WebState
  | [] => Except.ok st
  | r :: rs =>
    match webPush ParseString st r with
    | Except.error f => Except.error f
    | Except.ok st1 => webRun ParseString st1 rs

end Streamtools

namespace Streamtools

/-! ## Lemmas on splitting -/

theorem splitOn_ne_nil {α : Type} [DecidableEq α] (sep : α) (l : List α) :
    splitOn sep l ≠ [] := by
  induction l with
  | nil => simp [splitOn]
  | cons c cs ih =>
    unfold splitOn
    split
    · simp
    · split <;> simp

theorem splitOn_append_sep {α : Type} [DecidableEq α] (sep : α) (a b : List α) :
    splitOn sep (a ++ sep :: b) = splitOn sep a ++ splitOn sep b := by
  induction a with
  | nil => simp [splitOn]
  | cons c cs ih =>
    by_cases hc : c = sep
    · simp [splitOn, hc, ih]
    · cases hs : splitOn sep cs with
      | nil => exact absurd hs (splitOn_ne_nil sep cs)
      | cons h t =>
        rw [hs] at ih
        simp [splitOn, hc, ih, hs]

theorem splitOn_of_not_mem {α : Type} [DecidableEq α] (sep : α) (l : List α)
    (h : sep ∉ l) : splitOn sep l = [l] := by
  induction l with
  | nil => simp [splitOn]
  | cons c cs ih =>
    have hc : c ≠ sep := fun e => h (by simp [e])
    have hcs : sep ∉ cs := fun e => h (by simp [e])
    simp [splitOn, hc, ih hcs]

theorem joinNl_cons_cons (c : Nat) (h : List Nat) (t : List (List Nat)) :
    joinNl ((c :: h) :: t) = c :: joinNl (h :: t) := by
  cases t <;> simp [joinNl]

theorem joinNl_splitOn (buf : List Nat) : joinNl (splitOn 10 buf) = buf := by
  induction buf with
  | nil => simp [splitOn, joinNl]
  | cons c cs ih =>
    cases hs : splitOn 10 cs with
    | nil => exact absurd hs (splitOn_ne_nil 10 cs)
    | cons h t =>
      rw [hs] at ih
      by_cases hc : c = 10
      · simp [splitOn, hc, hs, joinNl, ih]
      · simp [splitOn, hc, hs, joinNl_cons_cons, ih]

/-! ## Lemmas on the delimiter test -/

theorem endsWithDelim_of_suffix (chunk a : List Nat)
    (h : chunk = a ++ [125, 10] ∨ chunk = a ++ [13, 10]) :
    endsWithDelim chunk = true ∧ 2 ≤ chunk.length := by
  rcases h with rfl | rfl
  · simp [endsWithDelim, d1]
  · simp [endsWithDelim, d2, d1]

theorem endsWithDelim_last (chunk : List Nat) (h : endsWithDelim chunk = true) :
    ∃ a, chunk = a ++ [10] := by
  have hd : chunk.drop (chunk.length - 2) = d1 ∨ chunk.drop (chunk.length - 2) = d2 := by
    simp only [endsWithDelim, Bool.or_eq_true, decide_eq_true_eq] at h
    rcases h with h | h
    · exact Or.inl h.symm
    · exact Or.inr h.symm
  have hsplit := List.take_append_drop (chunk.length - 2) chunk
  rcases hd with hd | hd
  · exact ⟨chunk.take (chunk.length - 2) ++ [125], by
      conv_lhs => rw [← hsplit, hd]
      simp [d1]⟩
  · exact ⟨chunk.take (chunk.length - 2) ++ [13], by
      conv_lhs => rw [← hsplit, hd]
      simp [d2]⟩

theorem endsWithDelim_append (a c : List Nat) (h : 2 ≤ c.length) :
    endsWithDelim (a ++ c) = endsWithDelim c := by
  have : (a ++ c).drop ((a ++ c).length - 2) = c.drop (c.length - 2) := by
    rw [List.drop_append_eq_append_drop]
    have h1 : a.length + c.length - 2 - a.length = c.length - 2 := by omega
    have h2 : a.length ≤ a.length + c.length - 2 := by omega
    simp [List.length_append, h1, List.drop_eq_nil_of_le h2]
  unfold endsWithDelim
  rw [this]

theorem frameMsgs_append_newline (decode : List Nat → Option Value) (a b : List Nat) :
    frameMsgs decode (a ++ 10 :: b) = frameMsgs decode a ++ frameMsgs decode b := by
  simp [frameMsgs, splitOn_append_sep]

theorem frameMsgs_append_of_delim (decode : List Nat → Option Value) (a b : List Nat)
    (h : endsWithDelim a = true) :
    frameMsgs decode (a ++ b) = frameMsgs decode a ++ frameMsgs decode b := by
  obtain ⟨a1, rfl⟩ := endsWithDelim_last a h
  have h1 : a1 ++ [10] ++ b = a1 ++ 10 :: b := by simp
  have h2 : frameMsgs decode (a1 ++ [10]) = frameMsgs decode a1 := by
    have := frameMsgs_append_newline decode a1 []
    simpa [frameMsgs, splitOn] using this
  rw [h1, frameMsgs_append_newline, h2]

/-! ## Lemmas on the queue -/

theorem foldl_offer_room (cap : Nat) (msgs : List Msg) (st : ListenState)
    (h : st.dataChan.length + msgs.length ≤ cap) :
    (msgs.foldl (offer cap) st).dataChan = st.dataChan ++ msgs ∧
      (msgs.foldl (offer cap) st).errors = st.errors := by
  induction msgs generalizing st with
  | nil => simp
  | cons m ms ih =>
    have hlt : st.dataChan.length < cap := by simp at h; omega
    have ho : offer cap st m =
        { st with dataChan := st.dataChan ++ [m], sent := st.sent ++ [readMsg st.arrays m] } := by
      simp [offer, hlt]
    have h1 : (offer cap st m).dataChan.length + ms.length ≤ cap := by
      simp [ho] at h ⊢; omega
    have := ih (offer cap st m) h1
    rw [List.foldl_cons, this.1, this.2, ho]
    simp

theorem foldl_offer_full (cap : Nat) (msgs : List Msg) (st : ListenState)
    (h : cap ≤ st.dataChan.length) :
    (msgs.foldl (offer cap) st).dataChan = st.dataChan ∧
      (msgs.foldl (offer cap) st).errors =
        st.errors ++ List.replicate msgs.length (discardText st.dataChan.length) := by
  induction msgs generalizing st with
  | nil => simp
  | cons m ms ih =>
    have hlt : ¬ st.dataChan.length < cap := by omega
    have ho : offer cap st m =
        { st with errors := st.errors ++ [discardText st.dataChan.length] } := by
      simp [offer, hlt]
    have h1 : cap ≤ (offer cap st m).dataChan.length := by simp [ho]; omega
    have := ih (offer cap st m) h1
    rw [List.foldl_cons, this.1, this.2, ho]
    simp [List.replicate_succ]

theorem foldl_offer_length_le (cap : Nat) (msgs : List Msg) (st : ListenState)
    (h : st.dataChan.length ≤ cap) :
    (msgs.foldl (offer cap) st).dataChan.length ≤ cap := by
  induction msgs generalizing st with
  | nil => simpa using h
  | cons m ms ih =>
    apply ih
    unfold offer
    split
    · simp; omega
    · exact h

theorem foldl_viewOffer_room (cap : Nat) (msgs : List Value) (v : View)
    (h : v.queued + msgs.length ≤ cap) :
    (msgs.foldl (viewOffer cap) v).sent = v.sent ++ msgs ∧
      (msgs.foldl (viewOffer cap) v).errors = v.errors := by
  induction msgs generalizing v with
  | nil => simp
  | cons m ms ih =>
    have hlt : v.queued < cap := by simp at h; omega
    have ho : viewOffer cap v m = { v with queued := v.queued + 1, sent := v.sent ++ [m] } := by
      simp [viewOffer, hlt]
    have h1 : (viewOffer cap v m).queued + ms.length ≤ cap := by
      simp [ho] at h ⊢; omega
    have := ih (viewOffer cap v m) h1
    rw [List.foldl_cons, this.1, this.2, ho]
    simp

/-! ## Lemmas on the buffer and on the blob loop -/

theorem getElem?_concat_last {α : Type} (l : List α) (x : α) :
    (l ++ [x])[(l ++ [x]).length - 1]? = some x := by
  simp

theorem bodyWrite_spec (grow : Nat → Nat → Nat → Nat) (st : ListenState) (chunk : List Nat) :
    (bodyWrite grow st chunk).body = st.body ++ chunk ∧
      (bodyWrite grow st chunk).dataChan = st.dataChan ∧
      (bodyWrite grow st chunk).errors = st.errors ∧
      (bodyWrite grow st chunk).sent = st.sent ∧
      ∃ tail, (bodyWrite grow st chunk).arrays[(bodyWrite grow st chunk).arrays.length - 1]? =
        some (st.body ++ chunk ++ tail) := by
  unfold bodyWrite
  simp only
  split
  · exact ⟨rfl, rfl, rfl, rfl, _, getElem?_concat_last _ _⟩
  · exact ⟨rfl, rfl, rfl, rfl, _, getElem?_concat_last _ _⟩

theorem slice_of_layout (pre blob post : List Nat) :
    ((pre ++ blob ++ post).drop pre.length).take blob.length = blob := by
  simp [List.append_assoc]

theorem readMsg_outMsgOf (decode : List Nat → Option Value) (arrays : List (List Nat))
    (arr : Nat) (pre blob post : List Nat)
    (h : arrays[arr]? = some (pre ++ blob ++ post)) :
    readMsg arrays (outMsgOf decode arr pre.length blob) = msgValue decode blob := by
  unfold outMsgOf msgValue
  cases decode blob with
  | some v => rfl
  | none =>
    simp only [readMsg, h, Option.getD_some, slice_of_layout]

theorem offer_view (cap : Nat) (st : ListenState) (m : Msg) :
    view (offer cap st m) = viewOffer cap (view st) (readMsg st.arrays m) := by
  unfold offer viewOffer view
  by_cases h : st.dataChan.length < cap
  · simp [h]
  · simp [h]

theorem offer_arrays (cap : Nat) (st : ListenState) (m : Msg) :
    (offer cap st m).arrays = st.arrays := by
  unfold offer
  split <;> rfl

theorem onBlob_arrays (cap : Nat) (decode : List Nat → Option Value) (arr off : Nat)
    (st : ListenState) (blob : List Nat) :
    (onBlob cap decode arr off st blob).arrays = st.arrays := by
  unfold onBlob
  split
  · exact offer_arrays _ _ _
  · rfl

theorem blobLoop_view (cap : Nat) (decode : List Nat → Option Value) (arr : Nat)
    (pieces : List (List Nat)) (pre post : List Nat) (st : ListenState)
    (h : st.arrays[arr]? = some (pre ++ joinNl pieces ++ post)) :
    view (blobLoop cap decode arr pre.length st pieces) =
      ((pieces.filter (fun blob => decide (0 < blob.length))).map (msgValue decode)).foldl
        (viewOffer cap) (view st) := by
  induction pieces generalizing pre st with
  | nil => rfl
  | cons blob rest ih =>
    have hstep : view (onBlob cap decode arr pre.length st blob) =
        (((if 0 < blob.length then [blob] else []) : List (List Nat)).map
          (msgValue decode)).foldl (viewOffer cap) (view st) := by
      by_cases hb : 0 < blob.length
      · have hlay : ∃ post1, st.arrays[arr]? = some (pre ++ blob ++ post1) := by
          cases rest with
          | nil => exact ⟨post, by simpa [joinNl] using h⟩
          | cons q r => exact ⟨10 :: joinNl (q :: r) ++ post, by simpa [joinNl] using h⟩
        obtain ⟨post1, hp⟩ := hlay
        simp only [onBlob, hb, if_true, offer_view, readMsg_outMsgOf decode _ arr pre blob post1 hp]
        simp
      · simp [onBlob, hb]
    cases rest with
    | nil =>
      simp only [blobLoop, hstep]
      by_cases hb : 0 < blob.length <;> simp [hb]
    | cons q r =>
      have hlay2 : (onBlob cap decode arr pre.length st blob).arrays[arr]? =
          some ((pre ++ blob ++ [10]) ++ joinNl (q :: r) ++ post) := by
        rw [onBlob_arrays]
        simpa [joinNl] using h
      have hlen : (pre ++ blob ++ [10]).length = pre.length + blob.length + 1 := by
        simp [Nat.add_assoc]
      have := ih (pre ++ blob ++ [10]) (onBlob cap decode arr pre.length st blob) hlay2
      rw [hlen] at this
      rw [blobLoop, this, hstep]
      by_cases hb : 0 < blob.length
      · simp [hb, List.filter_cons]
      · simp [hb, List.filter_cons]

theorem blobLoop_sync (cap : Nat) (decode : List Nat → Option Value) (arr : Nat)
    (pieces : List (List Nat)) (off : Nat) (st : ListenState) :
    (blobLoop cap decode arr off st pieces).arrays = st.arrays ∧
      (blobLoop cap decode arr off st pieces).body = st.body ∧
      ∃ queued, (blobLoop cap decode arr off st pieces).dataChan = st.dataChan ++ queued ∧
        (blobLoop cap decode arr off st pieces).sent =
          st.sent ++ queued.map (readMsg st.arrays) := by
  induction pieces generalizing off st with
  | nil => exact ⟨rfl, rfl, [], by simp [blobLoop], by simp [blobLoop]⟩
  | cons blob rest ih =>
    have hone : (onBlob cap decode arr off st blob).arrays = st.arrays ∧
        (onBlob cap decode arr off st blob).body = st.body ∧
        ∃ queued, (onBlob cap decode arr off st blob).dataChan = st.dataChan ++ queued ∧
          (onBlob cap decode arr off st blob).sent =
            st.sent ++ queued.map (readMsg st.arrays) := by
      by_cases hb : 0 < blob.length
      · by_cases hq : st.dataChan.length < cap
        · rw [onBlob, if_pos hb, offer, if_pos hq]
          exact ⟨rfl, rfl, [outMsgOf decode arr off blob], rfl, rfl⟩
        · rw [onBlob, if_pos hb, offer, if_neg hq]
          exact ⟨rfl, rfl, [], by simp, by simp⟩
      · rw [onBlob, if_neg hb]
        exact ⟨rfl, rfl, [], by simp, by simp⟩
    obtain ⟨ha, hbody, q1, hq1, hs1⟩ := hone
    obtain ⟨ha2, hbody2, q2, hq2, hs2⟩ :=
      ih (off + blob.length + 1) (onBlob cap decode arr off st blob)
    refine ⟨by rw [blobLoop, ha2, ha], by rw [blobLoop, hbody2, hbody], q1 ++ q2, ?_, ?_⟩
    · rw [blobLoop, hq2, hq1, List.append_assoc]
    · rw [blobLoop, hs2, hs1, ha, List.map_append, List.append_assoc]

theorem onChunk_short (grow : Nat → Nat → Nat → Nat) (cap : Nat)
    (decode : List Nat → Option Value) (st : ListenState) (chunk : List Nat)
    (h : chunk.length < 2) : onChunk grow cap decode st chunk = st := by
  simp [onChunk, h]

theorem onChunk_open (grow : Nat → Nat → Nat → Nat) (cap : Nat)
    (decode : List Nat → Option Value) (st : ListenState) (chunk : List Nat)
    (h : 2 ≤ chunk.length) (hd : endsWithDelim chunk = false) :
    (onChunk grow cap decode st chunk).body = st.body ++ chunk ∧
      view (onChunk grow cap decode st chunk) = view st := by
  have h2 : ¬ chunk.length < 2 := by omega
  obtain ⟨hb, hq, he, hs, _⟩ := bodyWrite_spec grow st chunk
  simp only [onChunk, h2, if_false, hd, Bool.false_eq_true]
  exact ⟨hb, by simp [view, hq, he, hs]⟩

theorem onChunk_frame (grow : Nat → Nat → Nat → Nat) (cap : Nat)
    (decode : List Nat → Option Value) (st : ListenState) (chunk : List Nat)
    (h : 2 ≤ chunk.length) (hd : endsWithDelim chunk = true) :
    (onChunk grow cap decode st chunk).body = [] ∧
      view (onChunk grow cap decode st chunk) =
        (frameMsgs decode (st.body ++ chunk)).foldl (viewOffer cap) (view st) := by
  have h2 : ¬ chunk.length < 2 := by omega
  obtain ⟨hb, hq, he, hs, tail, harr⟩ := bodyWrite_spec grow st chunk
  have hview : view (bodyWrite grow st chunk) = view st := by simp [view, hq, he, hs]
  have hlay : (bodyWrite grow st chunk).arrays[(bodyWrite grow st chunk).arrays.length - 1]? =
      some (([] : List Nat) ++ joinNl (splitOn 10 (bodyWrite grow st chunk).body) ++ tail) := by
    rw [joinNl_splitOn, hb, harr]
    simp
  have hloop := blobLoop_view cap decode ((bodyWrite grow st chunk).arrays.length - 1)
    (splitOn 10 (bodyWrite grow st chunk).body) [] tail (bodyWrite grow st chunk) hlay
  simp only [onChunk, h2, if_false, hd, if_true]
  refine ⟨rfl, ?_⟩
  have hreset : ∀ s, view (bodyReset s) = view s := fun _ => rfl
  rw [hreset]
  simp only [List.length_nil] at hloop
  rw [hloop, hview, hb]
  rfl

theorem feedChunks_frame (grow : Nat → Nat → Nat → Nat) (cap : Nat)
    (decode : List Nat → Option Value) (cs : List (List Nat)) (st : ListenState)
    (hlen : ∀ c ∈ cs, 2 ≤ c.length) (hne : cs ≠ [])
    (hend : endsWithDelim cs.flatten = true) :
    (feedChunks grow cap decode st cs).body = [] ∧
      view (feedChunks grow cap decode st cs) =
        (frameMsgs decode (st.body ++ cs.flatten)).foldl (viewOffer cap) (view st) := by
  induction cs generalizing st with
  | nil => exact absurd rfl hne
  | cons c rest ih =>
    have hc : 2 ≤ c.length := hlen c (by simp)
    have hrest : ∀ x ∈ rest, 2 ≤ x.length := fun x hx => hlen x (by simp [hx])
    cases hr : rest with
    | nil =>
      subst hr
      have hd : endsWithDelim c = true := by simpa using hend
      simpa [feedChunks] using onChunk_frame grow cap decode st c hc hd
    | cons r rs =>
      have hne1 : rest ≠ [] := by simp [hr]
      have hr2 : 2 ≤ rest.flatten.length := by
        have := hlen r (by simp [hr])
        simp [hr]
        omega
      have hend1 : endsWithDelim rest.flatten = true := by
        rw [List.flatten_cons, endsWithDelim_append c _ hr2] at hend
        exact hend
      have hstep : feedChunks grow cap decode st (c :: rest) =
          feedChunks grow cap decode (onChunk grow cap decode st c) rest := by
        simp [feedChunks]
      obtain ⟨hb, hv⟩ := ih (onChunk grow cap decode st c) hrest hne1 hend1
      rw [← hr, hstep]
      refine ⟨hb, ?_⟩
      rw [hv]
      cases hd : endsWithDelim c with
      | true =>
        have hbd : endsWithDelim (st.body ++ c) = true := by
          rw [endsWithDelim_append st.body c hc, hd]
        obtain ⟨hb1, hv1⟩ := onChunk_frame grow cap decode st c hc hd
        rw [hb1, hv1, List.nil_append, List.flatten_cons, ← List.append_assoc,
          frameMsgs_append_of_delim decode _ _ hbd, List.foldl_append]
      | false =>
        obtain ⟨hb1, hv1⟩ := onChunk_open grow cap decode st c hc hd
        rw [hb1, hv1, List.flatten_cons, List.append_assoc]

theorem onChunk_sync (grow : Nat → Nat → Nat → Nat) (cap : Nat)
    (decode : List Nat → Option Value) (st : ListenState) (chunk : List Nat)
    (h : 2 ≤ chunk.length) (hd : endsWithDelim chunk = true) :
    ∃ queued, (onChunk grow cap decode st chunk).dataChan = st.dataChan ++ queued ∧
      (onChunk grow cap decode st chunk).sent =
        st.sent ++ queued.map (readMsg (onChunk grow cap decode st chunk).arrays) := by
  have h2 : ¬ chunk.length < 2 := by omega
  obtain ⟨_, hq, _, hs, _⟩ := bodyWrite_spec grow st chunk
  obtain ⟨ha, _, queued, hq1, hs1⟩ := blobLoop_sync cap decode
    ((bodyWrite grow st chunk).arrays.length - 1) (splitOn 10 (bodyWrite grow st chunk).body) 0
    (bodyWrite grow st chunk)
  refine ⟨queued, ?_, ?_⟩
  · simp only [onChunk, h2, if_false, hd, if_true, bodyReset, hq1, hq]
  · simp only [onChunk, h2, if_false, hd, if_true, bodyReset, hs1, hs, ha]

/-! ## Claims on the listener -/

/-- C4: a chunk of at least two bytes whose last two bytes are `}` newline or
CR LF, read while the queue has room, puts on the queue exactly one message per
non-empty piece of the whole accumulation buffer (chunk included) cut at
newlines, in order: each message reads, when it is sent and when the read is
over, as the decoded value, or as the map holding the bytes of the piece under
`"data"` when decoding fails; nothing is reported and the buffer is reset. In
particular two decodable lines, each closed by a newline, give exactly the two
decoded values in arrival order. -/
theorem frame_emission (grow : Nat → Nat → Nat → Nat) (cap : Nat)
    (decode : List Nat → Option Value) (st : ListenState) (chunk a : List Nat)
    (hd : chunk = a ++ [125, 10] ∨ chunk = a ++ [13, 10])
    (hroom : st.dataChan.length +
      ((splitOn 10 (st.body ++ chunk)).filter (fun blob => decide (0 < blob.length))).length
        ≤ cap) :
    ∃ queued : List Msg,
      (onChunk grow cap decode st chunk).dataChan = st.dataChan ++ queued ∧
      queued.map (readMsg (onChunk grow cap decode st chunk).arrays) =
        ((splitOn 10 (st.body ++ chunk)).filter (fun blob => decide (0 < blob.length))).map
          (fun blob =>
            match decode blob with
            | some v => v
            | none => Value.obj [("data", Value.bytes blob)]) ∧
      (onChunk grow cap decode st chunk).sent =
        st.sent ++
          ((splitOn 10 (st.body ++ chunk)).filter (fun blob => decide (0 < blob.length))).map
            (fun blob =>
              match decode blob with
              | some v => v
              | none => Value.obj [("data", Value.bytes blob)]) ∧
      (onChunk grow cap decode st chunk).errors = st.errors ∧
      (onChunk grow cap decode st chunk).body = [] ∧
      ∀ m1 m2 v1 v2, st.body ++ chunk = m1 ++ 10 :: (m2 ++ [10]) →
        10 ∉ m1 → 10 ∉ m2 → m1 ≠ [] → m2 ≠ [] →
        decode m1 = some v1 → decode m2 = some v2 →
        queued.map (readMsg (onChunk grow cap decode st chunk).arrays) = [v1, v2] := by
  obtain ⟨hdelim, h2⟩ := endsWithDelim_of_suffix chunk a hd
  obtain ⟨hbody, hview⟩ := onChunk_frame grow cap decode st chunk h2 hdelim
  obtain ⟨queued, hq, hs⟩ := onChunk_sync grow cap decode st chunk h2 hdelim
  have hroom1 : (view st).queued + (frameMsgs decode (st.body ++ chunk)).length ≤ cap := by
    simpa [frameMsgs, view] using hroom
  have hr := foldl_viewOffer_room cap (frameMsgs decode (st.body ++ chunk)) (view st) hroom1
  rw [← hview] at hr
  have hsent : (onChunk grow cap decode st chunk).sent =
      st.sent ++ frameMsgs decode (st.body ++ chunk) := hr.1
  have hread : queued.map (readMsg (onChunk grow cap decode st chunk).arrays) =
      frameMsgs decode (st.body ++ chunk) := by
    rw [hs] at hsent
    exact List.append_cancel_left hsent
  refine ⟨queued, hq, hread, hsent, hr.2, hbody, ?_⟩
  intro m1 m2 v1 v2 hb h1 h2 hm1 hm2 hv1 hv2
  have hl1 : 0 < m1.length := List.length_pos.mpr hm1
  have hl2 : 0 < m2.length := List.length_pos.mpr hm2
  rw [hread, hb]
  simp [frameMsgs, splitOn_append_sep, splitOn_of_not_mem 10 m1 h1,
    splitOn_of_not_mem 10 m2 h2, splitOn, hl1, hl2, msgValue, hv1, hv2]

/-- Witness of C4: the chunk `{}` CR LF read by a listener that has just
started. -/
theorem frame_emission_witness :
    ([123, 125, 13, 10] = [123, 125] ++ [125, 10] ∨
        [123, 125, 13, 10] = [123, 125] ++ [13, 10]) ∧
      ∃ queued : List Msg,
        (onChunk bufferGrow dataChanCap decodeEmptyObject (ListenState.start [])
          [123, 125, 13, 10]).dataChan = [] ++ queued ∧
        queued.map (readMsg (onChunk bufferGrow dataChanCap decodeEmptyObject
          (ListenState.start []) [123, 125, 13, 10]).arrays) = [Value.obj []] :=
  ⟨Or.inr rfl,
    (frame_emission bufferGrow dataChanCap decodeEmptyObject (ListenState.start [])
      [123, 125, 13, 10] [123, 125] (Or.inr rfl) (by decide)).imp
      fun _ h => ⟨h.1, h.2.1⟩⟩

/-- C5: from an empty queue of capacity `K`, offering `K + 1` messages with no
take in between reports exactly one capacity error, leaves exactly the first
`K` messages queued in their order of offer, and at no point are more than `K`
messages queued. -/
theorem drop_policy (K : Nat) (st0 : ListenState) (msgs : List Msg)
    (hempty : st0.dataChan = []) (hlen : msgs.length = K + 1) :
    (msgs.foldl (offer K) st0).dataChan = msgs.take K ∧
      (msgs.foldl (offer K) st0).errors = st0.errors ++ [discardText K] ∧
      ∀ n, ((msgs.take n).foldl (offer K) st0).dataChan.length ≤ K := by
  have hsplit : msgs = msgs.take K ++ msgs.drop K := (List.take_append_drop K msgs).symm
  have htake : (msgs.take K).length = K := by simp [hlen]
  have hdrop : (msgs.drop K).length = 1 := by simp [hlen]
  have hroom := foldl_offer_room K (msgs.take K) st0 (by rw [hempty, htake]; simp)
  have hfull := foldl_offer_full K (msgs.drop K) ((msgs.take K).foldl (offer K) st0)
    (by rw [hroom.1, hempty]; simp [htake])
  have hfold : msgs.foldl (offer K) st0 =
      (msgs.drop K).foldl (offer K) ((msgs.take K).foldl (offer K) st0) := by
    conv_lhs => rw [hsplit, List.foldl_append]
  refine ⟨?_, ?_, ?_⟩
  · rw [hfold, hfull.1, hroom.1, hempty]
    simp
  · rw [hfold, hfull.2, hroom.2, hroom.1, hempty, hdrop]
    simp [htake]
  · intro n
    exact foldl_offer_length_le K (msgs.take n) st0 (by simp [hempty])

/-- Witness of C5: three messages offered to an empty queue of capacity two. -/
theorem drop_policy_witness :
    ([Msg.decoded (Value.num 1), Msg.decoded (Value.num 2),
        Msg.decoded (Value.num 3)].length = 2 + 1) ∧
      ([Msg.decoded (Value.num 1), Msg.decoded (Value.num 2),
        Msg.decoded (Value.num 3)].foldl (offer 2) (ListenState.start [])).dataChan =
        [Msg.decoded (Value.num 1), Msg.decoded (Value.num 2)] :=
  ⟨by decide,
    (drop_policy 2 (ListenState.start [])
      [Msg.decoded (Value.num 1), Msg.decoded (Value.num 2), Msg.decoded (Value.num 3)]
      rfl (by decide)).1⟩

/-- C7 as stated fails: the bytes `{}` newline cut into the chunks `{}` and
newline. The one-byte chunk is dropped by the `p < 2` test, so nothing is
sent and `{}` stays in the buffer, while the same bytes read as one chunk
send the decoded empty object and leave the buffer empty. -/
theorem chunking_one_byte_chunk_differs :
    (∀ c ∈ [[123, 125], [10]], c ≠ ([] : List Nat)) ∧
      [[123, 125], [10]].flatten = [123] ++ [125, 10] ∧
      (feedChunks bufferGrow dataChanCap decodeEmptyObject (ListenState.start [])
        [[123, 125], [10]]).sent = [] ∧
      (feedChunks bufferGrow dataChanCap decodeEmptyObject (ListenState.start [])
        [[123, 125], [10]]).dataChan = [] ∧
      (feedChunks bufferGrow dataChanCap decodeEmptyObject (ListenState.start [])
        [[123, 125], [10]]).body = [123, 125] ∧
      (onChunk bufferGrow dataChanCap decodeEmptyObject (ListenState.start [])
        [[123, 125], [10]].flatten).sent = [Value.obj []] ∧
      (onChunk bufferGrow dataChanCap decodeEmptyObject (ListenState.start [])
        [[123, 125], [10]].flatten).dataChan = [Msg.decoded (Value.obj [])] ∧
      (onChunk bufferGrow dataChanCap decodeEmptyObject (ListenState.start [])
        [[123, 125], [10]].flatten).body = [] :=
  ⟨by decide, rfl, rfl, rfl, rfl, rfl, rfl, rfl⟩

/-- C7, amended: for every byte sequence that ends in `}` newline or CR LF and
every way of cutting it into consecutive chunks of at least two bytes each,
reading the chunks one by one from an empty accumulation buffer sends the same
messages in the same order as reading the whole sequence as one chunk, each
message taken as it reads at the moment it is sent; the same errors are
reported, as many messages are queued, the buffer is left empty, and, when the
queue has room, the messages sent are those of the whole sequence. -/
theorem chunking_independent (grow : Nat → Nat → Nat → Nat) (cap : Nat)
    (decode : List Nat → Option Value) (st0 : ListenState) (cs : List (List Nat))
    (a : List Nat) (hbody : st0.body = []) (hlen : ∀ c ∈ cs, 2 ≤ c.length)
    (hend : cs.flatten = a ++ [125, 10] ∨ cs.flatten = a ++ [13, 10]) :
    (feedChunks grow cap decode st0 cs).sent = (onChunk grow cap decode st0 cs.flatten).sent ∧
      (feedChunks grow cap decode st0 cs).errors =
        (onChunk grow cap decode st0 cs.flatten).errors ∧
      (feedChunks grow cap decode st0 cs).dataChan.length =
        (onChunk grow cap decode st0 cs.flatten).dataChan.length ∧
      (feedChunks grow cap decode st0 cs).body = [] ∧
      (onChunk grow cap decode st0 cs.flatten).body = [] ∧
      (st0.dataChan.length + (frameMsgs decode cs.flatten).length ≤ cap →
        (feedChunks grow cap decode st0 cs).sent = st0.sent ++ frameMsgs decode cs.flatten ∧
          (feedChunks grow cap decode st0 cs).errors = st0.errors) := by
  obtain ⟨hdelim, hwhole⟩ := endsWithDelim_of_suffix cs.flatten a hend
  have hne : cs ≠ [] := by
    intro h
    rw [h] at hwhole
    simp at hwhole
  obtain ⟨hb1, hv1⟩ := feedChunks_frame grow cap decode cs st0 hlen hne hdelim
  obtain ⟨hb2, hv2⟩ := onChunk_frame grow cap decode st0 cs.flatten hwhole hdelim
  have hv : view (feedChunks grow cap decode st0 cs) =
      view (onChunk grow cap decode st0 cs.flatten) := by rw [hv1, hv2]
  refine ⟨congrArg View.sent hv, congrArg View.errors hv, congrArg View.queued hv,
    hb1, hb2, ?_⟩
  intro hroom
  have hr := foldl_viewOffer_room cap (frameMsgs decode cs.flatten) (view st0)
    (by simpa [view] using hroom)
  rw [hbody, List.nil_append] at hv1
  rw [← hv1] at hr
  exact hr

/-- Witness of amended C7: `{}` newline `{}` newline cut into `{}`, newline `{`
and `}` newline. -/
theorem chunking_independent_witness :
    ((∀ c ∈ [[123, 125], [10, 123], [125, 10]], 2 ≤ List.length c) ∧
        ([[123, 125], [10, 123], [125, 10]].flatten = [123, 125, 10, 123] ++ [125, 10] ∨
          [[123, 125], [10, 123], [125, 10]].flatten = [123, 125, 10, 123] ++ [13, 10])) ∧
      (feedChunks bufferGrow dataChanCap decodeEmptyObject (ListenState.start [])
          [[123, 125], [10, 123], [125, 10]]).sent =
        (onChunk bufferGrow dataChanCap decodeEmptyObject (ListenState.start [])
          [[123, 125], [10, 123], [125, 10]].flatten).sent :=
  ⟨⟨by decide, Or.inl rfl⟩,
    (chunking_independent bufferGrow dataChanCap decodeEmptyObject (ListenState.start [])
      [[123, 125], [10, 123], [125, 10]] [123, 125, 10, 123] rfl (by decide) (Or.inl rfl)).1⟩

/-- What the queue holds is not what was sent: after the reads `abc` CR LF and
`XYZ}` newline, neither of them JSON, the two fallback messages were sent as
`abc` CR and `XYZ}`, but both hold a slice of the same array of `body`, which
`body.Reset()` kept and the second `body.Write` overwrote, so both read
`XYZ}` on the queue. -/
theorem fallback_message_overwritten :
    (feedChunks bufferGrow dataChanCap decodeEmptyObject (ListenState.start [])
        [[97, 98, 99, 13, 10], [88, 89, 90, 125, 10]]).sent =
        [Value.obj [("data", Value.bytes [97, 98, 99, 13])],
          Value.obj [("data", Value.bytes [88, 89, 90, 125])]] ∧
      (feedChunks bufferGrow dataChanCap decodeEmptyObject (ListenState.start [])
        [[97, 98, 99, 13, 10], [88, 89, 90, 125, 10]]).dataChan =
        [Msg.raw 0 0 4, Msg.raw 0 0 4] ∧
      (feedChunks bufferGrow dataChanCap decodeEmptyObject (ListenState.start [])
        [[97, 98, 99, 13, 10], [88, 89, 90, 125, 10]]).dataChan.map
          (readMsg (feedChunks bufferGrow dataChanCap decodeEmptyObject (ListenState.start [])
            [[97, 98, 99, 13, 10], [88, 89, 90, 125, 10]]).arrays) =
        [Value.obj [("data", Value.bytes [88, 89, 90, 125])],
          Value.obj [("data", Value.bytes [88, 89, 90, 125])]] :=
  ⟨rfl, rfl, rfl⟩

/-- C8 fails on the code: with the reference queue full (1000 messages) the
offer reports the text built with `string(len(dataChan))`, which is the
character of code point 1000 and not the decimal numeral; the text does not
contain `1000`. -/
theorem discard_text_lacks_depth :
    (List.replicate 1000 (Msg.decoded Value.null)).length = dataChanCap ∧
      (offer dataChanCap (ListenState.start (List.replicate 1000 (Msg.decoded Value.null)))
        (Msg.decoded Value.null)).errors = ["Discarding Ϩmessages"] ∧
      ¬ ("1000".toList <:+: ("Discarding Ϩmessages").toList) := by
  have hfull : ¬ (ListenState.start
      (List.replicate 1000 (Msg.decoded Value.null))).dataChan.length < dataChanCap := by
    simp only [ListenState.start, List.length_replicate]
    decide
  have htext : discardText 1000 = "Discarding Ϩmessages" := by decide
  refine ⟨by rw [List.length_replicate]; rfl, ?_, by decide⟩
  unfold offer
  rw [if_neg hfull]
  simp only [ListenState.start, List.length_replicate, List.nil_append, htext]

/-! ## Lemmas on the control loops -/

theorem sendQuit_replies (returns : Nat → Bool) (st st1 : StreamState)
    (h : sendQuit returns st = Except.ok st1) : st1.replies = st.replies := by
  unfold sendQuit at h
  cases hq : st.quitChan with
  | none =>
    rw [hq] at h
    cases h
    rfl
  | some c =>
    rw [hq] at h
    by_cases hc : c ∈ st.signalled
    · simp [hc] at h
    · cases hr : returns c with
      | true =>
        simp only [hc, hr, if_false, if_true] at h
        cases h
        rfl
      | false => simp [hc, hr] at h

theorem streamPush_accepted (returns : Nat → Bool) (st st1 : StreamState)
    (rule : List (String × Value)) (E A : String)
    (hs : sendQuit returns st = Except.ok st1)
    (hE : rule.lookup "Endpoint" = some (Value.str E))
    (hA : rule.lookup "Auth" = some (Value.str A) ∨ (rule.lookup "Auth" = none ∧ A = "")) :
    streamPush returns st (Value.obj rule) =
      Except.ok { st1 with
        endpoint := E
        auth := A
        quitChan := some st1.started.length
        started := st1.started ++ [(E, A)] } := by
  rcases hA with hA | ⟨hA, rfl⟩ <;>
    simp [streamPush, hs, hE, hA, Value.assertString]

/-- Whenever the push arm completes on an accepted rule, the query arm run right
after it replies exactly `{Endpoint: E, Auth: A}`. -/
theorem streamPush_then_query (returns : Nat → Bool) (st : StreamState) (ruleI : Value)
    (E A : String) (hacc : Accepted ruleI E A) (st1 : StreamState)
    (h1 : streamPush returns st ruleI = Except.ok st1) :
    streamQueryReply st1 = Value.obj [("Endpoint", Value.str E), ("Auth", Value.str A)] := by
  obtain ⟨rule, rfl, hE, hA⟩ := hacc
  cases hs : sendQuit returns st with
  | error f => simp [streamPush, hs] at h1
  | ok st0 =>
    rw [streamPush_accepted returns st st0 rule E A hs hE hA] at h1
    cases h1
    rfl

theorem mapSet_of_not_mem (t : List (String × String)) (k r : String)
    (h : k ∉ t.map Prod.fst) : mapSet t k r = t ++ [(k, r)] := by
  induction t with
  | nil => rfl
  | cons kv rest ih =>
    obtain ⟨k1, r1⟩ := kv
    have hk : k1 ≠ k := fun e => h (by simp [e])
    have hrest : k ∉ rest.map Prod.fst := fun e => h (by simp [e])
    simp [mapSet, hk, ih hrest]

theorem parseHeadersFrom_strings (ps t : List (String × String))
    (h : (t.map Prod.fst ++ ps.map Prod.fst).Nodup) :
    parseHeadersFrom t (ps.map (fun kv => (kv.1, Value.str kv.2))) = Except.ok (t ++ ps) := by
  induction ps generalizing t with
  | nil => simp [parseHeadersFrom]
  | cons kv rest ih =>
    obtain ⟨k, r⟩ := kv
    have hk : k ∉ t.map Prod.fst := by
      intro hmem
      rw [List.nodup_append] at h
      exact h.2.2 hmem (by simp)
    have hnd : ((t ++ [(k, r)]).map Prod.fst ++ rest.map Prod.fst).Nodup := by
      simpa [List.append_assoc] using h
    simp only [List.map_cons, parseHeadersFrom]
    rw [mapSet_of_not_mem t k r hk, ih (t ++ [(k, r)]) hnd]
    simp

theorem parseHeadersFrom_not_string (hm : List (String × Value)) (t : List (String × String))
    (h : ∃ kv ∈ hm, kv.2.isStr = false) :
    parseHeadersFrom t hm = Except.error "value is not a string" := by
  induction hm generalizing t with
  | nil => simp at h
  | cons kv rest ih =>
    obtain ⟨k, v⟩ := kv
    cases v with
    | str r =>
      have hrest : ∃ kv ∈ rest, kv.2.isStr = false := by
        obtain ⟨x, hx, hxs⟩ := h
        rcases List.mem_cons.mp hx with rfl | hx
        · simp [Value.isStr] at hxs
        · exact ⟨x, hx, hxs⟩
      simp only [parseHeadersFrom]
      exact ih _ hrest
    | null => rfl
    | bool b => rfl
    | num n => rfl
    | bytes b => rfl
    | arr l => rfl
    | obj m => rfl

/-! ## Claims on the control loops -/

/-- C1 fails on the code: after an accepted push and then a rejected push, the
rejected push has already signalled the listener and kept its `quitChan`, so a
further push, although its rule is one that push accepts, sends on a channel
nobody receives from: the push never completes and the query after it gets no
reply. This holds whether or not the listener comes back from its reads. -/
theorem accepted_push_blocks_after_failed_push (returns : Nat → Bool) :
    Accepted (Value.obj [("Endpoint", Value.str "http://b")]) "http://b" "" ∧
      Rejected (Value.obj [("Endpoint", Value.num 5)]) ∧
      streamRun returns StreamState.init
        [Event.push (Value.obj [("Endpoint", Value.str "http://a")]),
          Event.push (Value.obj [("Endpoint", Value.num 5)]),
          Event.push (Value.obj [("Endpoint", Value.str "http://b")]),
          Event.query] = Except.error Fault.blocked := by
  refine ⟨⟨_, rfl, rfl, Or.inr ⟨rfl, rfl⟩⟩, ⟨_, rfl, Or.inl (Or.inr ⟨_, rfl, rfl⟩)⟩, ?_⟩
  cases h : returns 0 <;>
    simp [streamRun, streamStep, streamPush, sendQuit, StreamState.init,
      Value.assertString, List.lookup, h]

/-- C2 fails on the code: after an accepted push, a push whose `Endpoint` is a
number reports `bad endpoint`, yet the listener of the first push has been sent
its cancellation signal and the query reply has changed (`Endpoint` is now
empty); and a push with a valid `Endpoint` but a numeric `Auth` reports
`bad auth` and leaves the new endpoint and an empty `Auth` behind. -/
theorem failed_push_not_atomic :
    ∃ st1 st2 st3,
      streamPush allReturn StreamState.init
          (Value.obj [("Endpoint", Value.str "http://a"), ("Auth", Value.str "u:p")]) =
        Except.ok st1 ∧
      Rejected (Value.obj [("Endpoint", Value.num 5)]) ∧
      streamPush allReturn st1 (Value.obj [("Endpoint", Value.num 5)]) = Except.ok st2 ∧
      Rejected (Value.obj [("Endpoint", Value.str "http://b"), ("Auth", Value.num 7)]) ∧
      streamPush allReturn st1
          (Value.obj [("Endpoint", Value.str "http://b"), ("Auth", Value.num 7)]) =
        Except.ok st3 ∧
      streamQueryReply st1 =
        Value.obj [("Endpoint", Value.str "http://a"), ("Auth", Value.str "u:p")] ∧
      st1.quitChan = some 0 ∧ st1.signalled = [] ∧
      st2.errors = ["bad endpoint"] ∧
      streamQueryReply st2 = Value.obj [("Endpoint", Value.str ""), ("Auth", Value.str "u:p")] ∧
      st2.signalled = [0] ∧ st2.quitChan = some 0 ∧ st2.started.length = 1 ∧
      st3.errors = ["bad auth"] ∧
      streamQueryReply st3 =
        Value.obj [("Endpoint", Value.str "http://b"), ("Auth", Value.str "")] ∧
      st3.signalled = [0] :=
  ⟨_, _, _, rfl, ⟨_, rfl, Or.inl (Or.inr ⟨_, rfl, rfl⟩)⟩, rfl,
    ⟨_, rfl, Or.inr ⟨_, rfl, rfl⟩⟩, rfl, rfl, rfl, rfl, rfl, rfl, rfl, rfl, rfl, rfl, rfl, rfl⟩

/-- C3 fails on the code: after an accepted push and then a rejected push, the
rejected push has already signalled the listener and kept its `quitChan`, so
the shutdown arm sends on a channel nobody receives from and `Run` never
returns, whether or not the listener comes back from its reads; without the
rejected push, and with a listener that comes back from its reads, the shutdown
arm signals the listener and `Run` returns. -/
theorem shutdown_blocks_after_failed_push (returns : Nat → Bool) :
    streamRun returns StreamState.init
        [Event.push (Value.obj [("Endpoint", Value.str "http://a")]),
          Event.push (Value.obj [("Endpoint", Value.num 5)]),
          Event.quit] = Except.error Fault.blocked ∧
      ∃ st, streamRun allReturn StreamState.init
          [Event.push (Value.obj [("Endpoint", Value.str "http://a")]), Event.quit] =
            Except.ok st ∧ st.exited = true ∧ st.signalled = [0] := by
  refine ⟨?_, _, rfl, rfl, rfl⟩
  cases h : returns 0 <;>
    simp [streamRun, streamStep, streamPush, streamQuit, sendQuit, StreamState.init,
      Value.assertString, List.lookup, h]

/-- C10 fails on the code: the push arm accepts the `Auth` string `user`, starts
a listener with it and reports nothing, and in that listener the split on `:`
has a single piece, so the access at index 1 is out of range. -/
theorem credentials_without_colon_panic (returns : Nat → Bool) :
    ∃ st1,
      streamPush returns StreamState.init
          (Value.obj [("Endpoint", Value.str "http://a"), ("Auth", Value.str "user")]) =
        Except.ok st1 ∧
      st1.errors = [] ∧ st1.started = [("http://a", "user")] ∧
      splitOn ':' "user".toList = ["user".toList] ∧
      (splitOn ':' "user".toList)[1]? = none ∧
      listenCredentials "user" = none :=
  ⟨_, rfl, rfl, rfl, by decide, by decide, by decide⟩

/-- C6: in `WebRequest.Run`, for every state and every pushed map with a valid
`Method` whose `Headers` is a map: if some value of it is not a string, the
error is reported and the headers applied to later requests are the ones active
before the push (the headers loop, in whatever order it ranges over them,
writes the same `Host` and wire headers into a request as before); if all its values are strings, the applied headers become
exactly the pushed key/value pairs and nothing is reported. -/
theorem header_rejection_all_or_nothing
    (ParseString : Value → String → String × Option String) (st : WebState)
    (rule hm : List (String × Value))
    (hmeth : (ParseString (Value.obj rule) "Method").2 = none)
    (hh : rule.lookup "Headers" = some (Value.obj hm)) :
    ((∃ kv ∈ hm, kv.2.isStr = false) →
        ∃ st1, webPush ParseString st (Value.obj rule) = Except.ok st1 ∧
          st1.headers = st.headers ∧ st1.errors = st.errors ++ ["value is not a string"] ∧
          ∀ canon order req,
            applyHeaders canon order st1.headers req = applyHeaders canon order st.headers req) ∧
      (∀ ps : List (String × String), hm = ps.map (fun kv => (kv.1, Value.str kv.2)) →
        (ps.map Prod.fst).Nodup →
        ∃ st1, webPush ParseString st (Value.obj rule) = Except.ok st1 ∧
          st1.headers = ps ∧ st1.errors = st.errors) := by
  constructor
  · intro hbad
    have hp := parseHeadersFrom_not_string hm [] hbad
    have hpush : webPush ParseString st (Value.obj rule) =
        Except.ok { url := (ParseString (Value.obj rule) "Url").1,
                    httpMethod := (ParseString (Value.obj rule) "Method").1,
                    headerRule := hm, headers := st.headers,
                    errors := st.errors ++ ["value is not a string"],
                    replies := st.replies, exited := st.exited } := by
      simp only [webPush, hmeth, hh, parseHeaders, hp]
    exact ⟨_, hpush, rfl, rfl, fun _ _ _ => rfl⟩
  · intro ps hps hnd
    have hp := parseHeadersFrom_strings ps [] (by simpa using hnd)
    rw [← hps] at hp
    have hpush : webPush ParseString st (Value.obj rule) =
        Except.ok { url := (ParseString (Value.obj rule) "Url").1,
                    httpMethod := (ParseString (Value.obj rule) "Method").1,
                    headerRule := hm, headers := ps, errors := st.errors,
                    replies := st.replies, exited := st.exited } := by
      simp only [webPush, hmeth, hh, parseHeaders, hp, List.nil_append]
    exact ⟨_, hpush, rfl, rfl⟩

/-- Witness of C6: a push whose only header value is a number, from the entry
state. -/
theorem header_rejection_all_or_nothing_witness :
    ((parseStringModel (Value.obj [("Url", Value.str "http://a"), ("Method", Value.str "GET"),
          ("Headers", Value.obj [("X", Value.num 1)])]) "Method").2 = none) ∧
      ∃ st1, webPush parseStringModel WebState.init
          (Value.obj [("Url", Value.str "http://a"), ("Method", Value.str "GET"),
            ("Headers", Value.obj [("X", Value.num 1)])]) = Except.ok st1 ∧
        st1.headers = [] ∧ st1.errors = [] ++ ["value is not a string"] :=
  ⟨rfl,
    (header_rejection_all_or_nothing parseStringModel WebState.init
      [("Url", Value.str "http://a"), ("Method", Value.str "GET"),
        ("Headers", Value.obj [("X", Value.num 1)])]
      [("X", Value.num 1)] rfl rfl).1 ⟨("X", Value.num 1), by simp, rfl⟩ |>.imp
      fun _ h => ⟨h.1, h.2.1, h.2.2.1⟩⟩

/-- C9 fails on the code: a push whose header value is a number is rejected and
the applied headers stay as they were (none), yet `headerRule` has already been
overwritten, so the query reply carries the rejected headers, which
`parseHeaders` does not accept. -/
theorem query_returns_rejected_headers :
    ∃ st1,
      webRun parseStringModel WebState.init
          [Value.obj [("Url", Value.str "http://a"), ("Method", Value.str "GET"),
            ("Headers", Value.obj [("X", Value.num 1)])]] = Except.ok st1 ∧
      st1.headers = [] ∧ st1.errors = ["value is not a string"] ∧
      webQueryReply st1 =
        Value.obj [("Url", Value.str "http://a"), ("Method", Value.str "GET"),
          ("Headers", Value.obj [("X", Value.num 1)])] ∧
      parseHeaders st1.headerRule = Except.error "value is not a string" :=
  ⟨_, rfl, rfl, rfl, rfl, rfl⟩

end Streamtools
